import Mathlib

/-!
Shallow embedding of src/main.py, the Facebook nickname extraction script.

Python strings are modelled as lists of Unicode code points (List Nat),
byte strings as lists of byte values (List Nat, each below 256).
Dictionary fields that may be absent are modelled as Option; a Python
KeyError or codec error is an Except.error.
-/

namespace FBNicknameFinder

/-- Code points of a Lean string literal, used to write concrete Python strings. -/
def pystr (s : String) : List Nat := s.data.map Char.toNat

/-! Codec layer: Python encode and decode used by the mojibake repair.  -/

/-- Model of str.encode with the latin1 codec: each code point below 256 maps
to the byte of the same value, any larger code point raises. -/
def encLatin1 : List Nat → Option (List Nat)
  | [] => some []
  | c :: rest => if c < 256 then (encLatin1 rest).map (fun bs => c :: bs) else none

/-- Model of bytes.decode with the latin1 codec: every byte value is its own
code point, so the decode is total. -/
def decLatin1 (bs : List Nat) : List Nat := bs.map (fun b => b)

/-- UTF-8 encoding of one Unicode scalar value as its byte sequence. -/
def utf8EncodeChar (c : Nat) : List Nat :=
  if c < 0x80 then [c]
  else if c < 0x800 then [0xC0 + c / 0x40, 0x80 + c % 0x40]
  else if c < 0x10000 then [0xE0 + c / 0x1000, 0x80 + c / 0x40 % 0x40, 0x80 + c % 0x40]
  else [0xF0 + c / 0x40000, 0x80 + c / 0x1000 % 0x40, 0x80 + c / 0x40 % 0x40, 0x80 + c % 0x40]

/-- A code point a Python str.encode to UTF-8 accepts: any Unicode scalar
value, that is below 0x110000 and not a surrogate. -/
def isScalar (c : Nat) : Prop := c < 0x110000 ∧ (c < 0xD800 ∨ 0xE000 ≤ c)

instance (c : Nat) : Decidable (isScalar c) := by unfold isScalar; infer_instance

/-- Model of str.encode with the utf-8 codec: concatenates per-character
encodings, raises on a lone surrogate code point. -/
def encUtf8 : List Nat → Option (List Nat)
  | [] => some []
  | c :: rest =>
    if isScalar c then (encUtf8 rest).map (fun bs => utf8EncodeChar c ++ bs) else none

/-- Continuation bytes of a two byte sequence with leading byte b0: returns
the decoded scalar and the remaining bytes, rejecting a bad continuation
byte, a truncated sequence or an overlong form. -/
def decodeTwo (b0 : Nat) : List Nat → Option (Nat × List Nat)
  | [] => none
  | b1 :: rest =>
    if (0x80 ≤ b1 ∧ b1 < 0xC0) ∧ 0x80 ≤ (b0 - 0xC0) * 0x40 + (b1 - 0x80) then
      some ((b0 - 0xC0) * 0x40 + (b1 - 0x80), rest)
    else none

/-- Continuation bytes of a three byte sequence with leading byte b0,
rejecting bad continuations, truncation, overlong forms and surrogates. -/
def decodeThree (b0 : Nat) : List Nat → Option (Nat × List Nat)
  | b1 :: b2 :: rest =>
    if (0x80 ≤ b1 ∧ b1 < 0xC0) ∧ (0x80 ≤ b2 ∧ b2 < 0xC0) ∧
        0x800 ≤ (b0 - 0xE0) * 0x1000 + (b1 - 0x80) * 0x40 + (b2 - 0x80) ∧
        ((b0 - 0xE0) * 0x1000 + (b1 - 0x80) * 0x40 + (b2 - 0x80) < 0xD800 ∨
          0xE000 ≤ (b0 - 0xE0) * 0x1000 + (b1 - 0x80) * 0x40 + (b2 - 0x80)) then
      some ((b0 - 0xE0) * 0x1000 + (b1 - 0x80) * 0x40 + (b2 - 0x80), rest)
    else none
  | _ => none

/-- Continuation bytes of a four byte sequence with leading byte b0,
rejecting bad continuations, truncation, overlong forms and code points
above 0x10FFFF. -/
def decodeFour (b0 : Nat) : List Nat → Option (Nat × List Nat)
  | b1 :: b2 :: b3 :: rest =>
    if (0x80 ≤ b1 ∧ b1 < 0xC0) ∧ (0x80 ≤ b2 ∧ b2 < 0xC0) ∧ (0x80 ≤ b3 ∧ b3 < 0xC0) ∧
        0x10000 ≤ (b0 - 0xF0) * 0x40000 + (b1 - 0x80) * 0x1000 + (b2 - 0x80) * 0x40 + (b3 - 0x80) ∧
        (b0 - 0xF0) * 0x40000 + (b1 - 0x80) * 0x1000 + (b2 - 0x80) * 0x40 + (b3 - 0x80) < 0x110000 then
      some ((b0 - 0xF0) * 0x40000 + (b1 - 0x80) * 0x1000 + (b2 - 0x80) * 0x40 + (b3 - 0x80), rest)
    else none
  | _ => none

/-- Decodes one UTF-8 sequence from the front of the byte list, returning
the scalar and the remaining bytes. -/
def decodeOne : List Nat → Option (Nat × List Nat)
  | [] => none
  | b0 :: rest =>
    if b0 < 0x80 then some (b0, rest)
    else if b0 < 0xE0 then if 0xC0 ≤ b0 then decodeTwo b0 rest else none
    else if b0 < 0xF0 then decodeThree b0 rest
    else if b0 < 0xF8 then decodeFour b0 rest
    else none

/-- Decodes the whole byte list, one sequence at a time.  The fuel argument
only bounds the recursion; every sequence consumes at least one byte, so a
fuel of the byte count is enough. -/
def utf8DecodeAux : Nat → List Nat → Option (List Nat)
  | _, [] => some []
  | 0, _ :: _ => none
  | fuel + 1, b0 :: rest =>
    match decodeOne (b0 :: rest) with
    | none => none
    | some (c, rest2) => (utf8DecodeAux fuel rest2).map (fun cs => c :: cs)

/-- Model of bytes.decode with the utf-8 codec in strict mode: rejects
truncated sequences, stray continuation bytes, overlong forms, surrogates
and code points above 0x10FFFF. -/
def utf8Decode (bs : List Nat) : Option (List Nat) := utf8DecodeAux bs.length bs

/-- Model of FBNicknameFinder fixMojibake: s.encode latin1 then decode utf-8.
Returns none where the Python code raises. -/
def fixMojibake (s : List Nat) : Option (List Nat) :=
  (encLatin1 s).bind utf8Decode

/-- Model of FBNicknameFinder unfixMojibake: s.encode utf-8 then decode latin1.
Returns none where the Python code raises, which happens only on surrogates. -/
def unfixMojibake (s : List Nat) : Option (List Nat) :=
  (encUtf8 s).map decLatin1

/-! Extractor data model: one parsed conversation file.  -/

/-- One entry of the participants array: the value of its name key when the
key is present, none when absent (reading it then raises). -/
structure Participant where
  name : Option (List Nat)
deriving DecidableEq, Repr

/-- One entry of the messages array.  Each field is the value of the
corresponding key when present; none models an absent key. -/
structure MsgDict where
  sender_name : Option (List Nat)
  type : Option (List Nat)
  content : Option (List Nat)
  timestamp_ms : Option Int
deriving DecidableEq, Repr

/-- A parsed file as jdata: the participants and messages arrays, each none
when the key is absent. -/
structure FileDict where
  participants : Option (List Participant)
  messages : Option (List MsgDict)
deriving DecidableEq, Repr

/-- One output record appended to the result list. -/
structure NRec where
  timestamp_ms : Int
  nickname : List Nat
deriving DecidableEq, Repr

/-! Regex layer.  The compiled pattern is the literal phrase followed by
one or more characters anchored at end of string.  A dot does not match a
newline, so a search match at position i means: the phrase starts at i, and
the text after the phrase is nonempty, newline free, and runs to the end of
the string.  re.search returns the leftmost such position. -/

/-- Code points of the MATCH_PHRASE constant. -/
def MATCH_PHRASE : List Nat := pystr " set your nickname to "

/-- The PHRASE_OFFSET constant, the length of the phrase. -/
def PHRASE_OFFSET : Nat := MATCH_PHRASE.length

/-- Whether the regex matches when anchored at the start of the suffix l:
the phrase is a prefix and what follows it is a nonempty run of
non-newline characters reaching the end. -/
def matchSuffix (l : List Nat) : Bool :=
  MATCH_PHRASE.isPrefixOf l && !(l.drop PHRASE_OFFSET).isEmpty &&
    (l.drop PHRASE_OFFSET).all (fun c => c != 10)

/-- Leftmost match position of the compiled regex, scanning suffixes from
offset i. -/
def searchFrom : List Nat → Nat → Option Nat
  | [], _ => none
  | c :: rest, i =>
    if matchSuffix (c :: rest) then some i else searchFrom rest (i + 1)

/-- Model of REGEX.search: the start of the leftmost match, none when the
regex does not match anywhere. -/
def regexSearchStart (content : List Nat) : Option Nat := searchFrom content 0

/-! Extractor control flow. -/

/-- Truthiness of the username attribute: Python treats both None and the
empty string as false. -/
def truthy : Option (List Nat) → Bool
  | none => false
  | some s => !s.isEmpty

/-- Model of setUsername on a fresh finder: a falsy argument leaves the
username None, otherwise the username becomes unfixMojibake of the
argument; an error is a codec failure raised by unfixMojibake. -/
def setUsername (u : Option (List Nat)) : Except Unit (Option (List Nat)) :=
  match u with
  | none => .ok none
  | some s =>
    if s.isEmpty then .ok none
    else
      match unfixMojibake s with
      | none => .error ()
      | some t => .ok (some t)

/-- Model of isParticipant: scans the list, raising if an entry lacks the
name key before a match is found. -/
def isParticipant (ps : List Participant) (u : List Nat) : Except Unit Bool :=
  match ps with
  | [] => .ok false
  | p :: rest =>
    match p.name with
    | none => .error ()
    | some n => if n = u then .ok true else isParticipant rest u

/-- The per-message scan of the content string: none when the regex does not
match or matches at offset 0, an error when fixMojibake raises on the
extracted raw nickname, otherwise the repaired nickname.  The raw nickname
is the match text with the phrase and the final character sliced off. -/
def scanContent (c : List Nat) : Except Unit (Option (List Nat)) :=
  match regexSearchStart c with
  | none => .ok none
  | some i =>
    if 0 < i then
      match fixMojibake (((c.drop i).drop PHRASE_OFFSET).dropLast) with
      | none => .error ()
      | some nick => .ok (some nick)
    else .ok none

/-- Whether the self-message filter skips message m: reading sender_name
raises when the key is absent, and only when a username is configured. -/
def senderCheck (u : Option (List Nat)) (m : MsgDict) : Except Unit Bool :=
  if truthy u then
    match m.sender_name with
    | none => .error ()
    | some sn => .ok (sn = u.getD [])
  else .ok false

/-- Processing of one message inside the loop of findInFile: ok none is a
silent skip, ok some r appends the record r, error aborts the file. -/
def processMessage (u : Option (List Nat)) (m : MsgDict) : Except Unit (Option NRec) :=
  match senderCheck u m with
  | .error e => .error e
  | .ok true => .ok none
  | .ok false =>
    match m.type with
    | none => .error ()
    | some t =>
      if t = pystr "Generic" then
        match m.content with
        | none => .ok none
        | some c =>
          match scanContent c, m.timestamp_ms with
          | .error e, _ => .error e
          | .ok none, _ => .ok none
          | .ok (some _), none => .error ()
          | .ok (some nick), some ts => .ok (some ⟨ts, nick⟩)
      else .ok none

/-- The message loop: the records appended in order, paired with whether an
exception cut the loop short.  On an exception the remaining messages are
abandoned but earlier records are kept by the caller. -/
def runMessages (u : Option (List Nat)) : List MsgDict → List NRec × Bool
  | [] => ([], false)
  | m :: ms =>
    match processMessage u m with
    | .error _ => ([], true)
    | .ok none => runMessages u ms
    | .ok (some r) =>
      let p := runMessages u ms
      (r :: p.1, p.2)

/-- Outcome of findInFile on a file that parsed as JSON. -/
inductive FileResult where
  | skipped
  | errored (recs : List NRec)
  | completed (recs : List NRec)
deriving DecidableEq, Repr

/-- The records a file contributes to the result list: on an error, the
records appended before the exception remain. -/
def FileResult.records : FileResult → List NRec
  | .skipped => []
  | .errored rs => rs
  | .completed rs => rs

/-- The message phase of findInFile: reading the messages key raises when
absent, then the loop runs with the per-file exception handler. -/
def processMsgs (u : Option (List Nat)) (j : FileDict) : FileResult :=
  match j.messages with
  | none => .errored []
  | some ms =>
    let p := runMessages u ms
    if p.2 then .errored p.1 else .completed p.1

/-- Model of findInFile after a successful JSON parse: the participant
filter runs first when a username is configured, then the message loop;
any exception is caught per file. -/
def processParsed (u : Option (List Nat)) (j : FileDict) : FileResult :=
  if truthy u then
    match j.participants with
    | none => .errored []
    | some ps =>
      match isParticipant ps (u.getD []) with
      | .error _ => .errored []
      | .ok false => .skipped
      | .ok true => processMsgs u j
  else processMsgs u j

/-- What a path on disk looks like to findInFile: either the open or JSON
parse fails, which is a warned skip, or a parsed document. -/
inductive FileData where
  | invalid
  | parsed (j : FileDict)
deriving DecidableEq, Repr

/-- The records one candidate file contributes. -/
def processData (u : Option (List Nat)) : FileData → List NRec
  | .invalid => []
  | .parsed j => (processParsed u j).records

/-- A path given to findInFiles: either not a regular file, skipped with a
warning, or a file with contents. -/
inductive PathEntry where
  | notAFile
  | file (d : FileData)
deriving DecidableEq, Repr

/-- Model of findInFiles: each path in order, non-files skipped with a
warning, the result accumulated across files in order. -/
def findInFiles (u : Option (List Nat)) : List PathEntry → List NRec
  | [] => []
  | .notAFile :: rest => findInFiles u rest
  | .file d :: rest => processData u d ++ findInFiles u rest

/-! Directory mode and the top level write decision. -/

/-- Observable state of one run of findInDirectory. -/
structure RunState where
  result : List NRec
  crashed : Bool
  fatalLogged : Bool
  entriesProcessed : Nat
deriving DecidableEq, Repr

/-- Model of findInDirectory: initProcess sets crashed to False; an invalid
directory logs the fatal message and returns before processing any entry;
otherwise every directory entry is handed to findInFile.  Nothing in the
source ever sets crashed to True. -/
def findInDirectory (u : Option (List Nat)) (isDir : Bool) (entries : List FileData) : RunState :=
  if isDir then
    { result := (entries.map (processData u)).flatten
      crashed := false
      fatalLogged := false
      entriesProcessed := entries.length }
  else
    { result := []
      crashed := false
      fatalLogged := true
      entriesProcessed := 0 }

/-- The main block writes the output file exactly when the crashed flag is
still false after the run. -/
def mainWritesOutput (s : RunState) : Bool := !s.crashed

/-- A concrete message whose content matches the phrase with actor Sam and
nickname Bob, used in witnesses. -/
def sampleMsg : MsgDict :=
  ⟨some (pystr "Sam"), some (pystr "Generic"),
    some (pystr "Sam set your nickname to Bob."), some 1⟩

/-- A concrete message whose matched raw nickname is the single code point
255, on which fixMojibake raises, used in witnesses. -/
def badCodecMsg : MsgDict :=
  ⟨some (pystr "Sam"), some (pystr "Generic"),
    some (pystr "Sam set your nickname to ÿ."), some 2⟩


theorem decodeTwo_length {b0 : Nat} {l r : List Nat} {c : Nat}
    (h : decodeTwo b0 l = some (c, r)) : r.length < l.length := by
  cases l with
  | nil => simp [decodeTwo] at h
  | cons b1 rest =>
    simp only [decodeTwo] at h
    split at h
    · simp at h
      obtain ⟨-, h2⟩ := h
      subst h2
      simp
    · simp at h

theorem decodeThree_length {b0 : Nat} {l r : List Nat} {c : Nat}
    (h : decodeThree b0 l = some (c, r)) : r.length < l.length := by
  match l with
  | [] => simp [decodeThree] at h
  | [b1] => simp [decodeThree] at h
  | b1 :: b2 :: rest =>
    simp only [decodeThree] at h
    split at h
    · simp at h
      obtain ⟨-, h2⟩ := h
      subst h2
      simp
      omega
    · simp at h

theorem decodeFour_length {b0 : Nat} {l r : List Nat} {c : Nat}
    (h : decodeFour b0 l = some (c, r)) : r.length < l.length := by
  match l with
  | [] => simp [decodeFour] at h
  | [b1] => simp [decodeFour] at h
  | [b1, b2] => simp [decodeFour] at h
  | b1 :: b2 :: b3 :: rest =>
    simp only [decodeFour] at h
    split at h
    · simp at h
      obtain ⟨-, h2⟩ := h
      subst h2
      simp
      omega
    · simp at h

theorem decodeOne_length {l r : List Nat} {c : Nat}
    (h : decodeOne l = some (c, r)) : r.length < l.length := by
  cases l with
  | nil => simp [decodeOne] at h
  | cons b0 rest =>
    simp only [decodeOne] at h
    split at h
    · simp at h
      obtain ⟨-, h2⟩ := h
      subst h2
      simp
    · split at h
      · split at h
        · have := decodeTwo_length h
          simp
          omega
        · simp at h
      · split at h
        · have := decodeThree_length h
          simp
          omega
        · split at h
          · have := decodeFour_length h
            simp
            omega
          · simp at h



theorem utf8DecodeAux_mono : ∀ f1 : Nat, ∀ f2 : Nat, ∀ bs : List Nat,
    bs.length ≤ f1 → bs.length ≤ f2 → utf8DecodeAux f1 bs = utf8DecodeAux f2 bs := by
  intro f1
  induction f1 with
  | zero =>
    intro f2 bs h1 h2
    have : bs = [] := by
      cases bs
      · rfl
      · simp at h1
    subst this
    cases f2 <;> simp [utf8DecodeAux]
  | succ f ih =>
    intro f2 bs h1 h2
    cases bs with
    | nil => cases f2 <;> simp [utf8DecodeAux]
    | cons b0 rest =>
      cases f2 with
      | zero => simp at h2
      | succ f2p =>
        simp only [List.length_cons] at h1 h2
        rw [utf8DecodeAux, utf8DecodeAux]
        cases hd : decodeOne (b0 :: rest) with
        | none => rfl
        | some p =>
          obtain ⟨c, rest2⟩ := p
          have hlen := decodeOne_length hd
          simp only [List.length_cons] at hlen
          simp only []
          rw [ih f2p rest2 (by omega) (by omega)]

theorem utf8Decode_cons (b0 : Nat) (rest : List Nat) :
    utf8Decode (b0 :: rest) =
      match decodeOne (b0 :: rest) with
      | none => none
      | some (c, rest2) => (utf8Decode rest2).map (fun cs => c :: cs) := by
  rw [utf8Decode, List.length_cons, utf8DecodeAux]
  cases hd : decodeOne (b0 :: rest) with
  | none => rfl
  | some p =>
    obtain ⟨c, rest2⟩ := p
    have hlen := decodeOne_length hd
    simp only [List.length_cons] at hlen
    simp only [utf8Decode]
    rw [utf8DecodeAux_mono rest.length rest2.length rest2 (by omega) (by omega)]



theorem utf8EncodeChar_ne_nil (c : Nat) : utf8EncodeChar c ≠ [] := by
  unfold utf8EncodeChar
  split
  · simp
  · split
    · simp
    · split <;> simp

theorem decodeOne_encodeChar (c : Nat) (h : isScalar c) (bs : List Nat) :
    decodeOne (utf8EncodeChar c ++ bs) = some (c, bs) := by
  obtain ⟨h1, h2⟩ := h
  by_cases hc0 : c < 0x80
  · simp [utf8EncodeChar, decodeOne, hc0]
  · by_cases hc1 : c < 0x800
    · have e : (0xC0 + c / 0x40 - 0xC0) * 0x40 + (0x80 + c % 0x40 - 0x80) = c := by omega
      have n1 : ¬ (0xC0 + c / 0x40 < 0x80) := by omega
      have p1 : 0xC0 + c / 0x40 < 0xE0 := by omega
      have p2 : 0xC0 ≤ 0xC0 + c / 0x40 := by omega
      have p3 : (0x80 ≤ 0x80 + c % 0x40 ∧ 0x80 + c % 0x40 < 0xC0) ∧
          0x80 ≤ (0xC0 + c / 0x40 - 0xC0) * 0x40 + (0x80 + c % 0x40 - 0x80) := by
        constructor
        · omega
        · omega
      simp only [utf8EncodeChar, if_neg hc0, if_pos hc1, List.cons_append, List.nil_append,
        decodeOne, decodeTwo, if_neg n1, if_pos p1, if_pos p2, e]
      split
      · rfl
      · omega
    · by_cases hc2 : c < 0x10000
      · have e : (0xE0 + c / 0x1000 - 0xE0) * 0x1000 + (0x80 + c / 0x40 % 0x40 - 0x80) * 0x40 +
            (0x80 + c % 0x40 - 0x80) = c := by omega
        have n1 : ¬ (0xE0 + c / 0x1000 < 0x80) := by omega
        have n2 : ¬ (0xE0 + c / 0x1000 < 0xE0) := by omega
        have p1 : 0xE0 + c / 0x1000 < 0xF0 := by omega
        have p3 : (0x80 ≤ 0x80 + c / 0x40 % 0x40 ∧ 0x80 + c / 0x40 % 0x40 < 0xC0) ∧
            (0x80 ≤ 0x80 + c % 0x40 ∧ 0x80 + c % 0x40 < 0xC0) ∧
            0x800 ≤ (0xE0 + c / 0x1000 - 0xE0) * 0x1000 + (0x80 + c / 0x40 % 0x40 - 0x80) * 0x40 +
              (0x80 + c % 0x40 - 0x80) ∧
            ((0xE0 + c / 0x1000 - 0xE0) * 0x1000 + (0x80 + c / 0x40 % 0x40 - 0x80) * 0x40 +
              (0x80 + c % 0x40 - 0x80) < 0xD800 ∨
              0xE000 ≤ (0xE0 + c / 0x1000 - 0xE0) * 0x1000 + (0x80 + c / 0x40 % 0x40 - 0x80) * 0x40 +
              (0x80 + c % 0x40 - 0x80)) := by
          refine ⟨by omega, by omega, by omega, ?_⟩
          rcases h2 with h2 | h2
          · left
            omega
          · right
            omega
        simp only [utf8EncodeChar, if_neg hc0, if_neg hc1, if_pos hc2, List.cons_append,
          List.nil_append, decodeOne, decodeThree, if_neg n1, if_neg n2, if_pos p1, e]
        split
        · rfl
        · omega
      · have e : (0xF0 + c / 0x40000 - 0xF0) * 0x40000 + (0x80 + c / 0x1000 % 0x40 - 0x80) * 0x1000 +
            (0x80 + c / 0x40 % 0x40 - 0x80) * 0x40 + (0x80 + c % 0x40 - 0x80) = c := by omega
        have n1 : ¬ (0xF0 + c / 0x40000 < 0x80) := by omega
        have n2 : ¬ (0xF0 + c / 0x40000 < 0xE0) := by omega
        have n3 : ¬ (0xF0 + c / 0x40000 < 0xF0) := by omega
        have p1 : 0xF0 + c / 0x40000 < 0xF8 := by omega
        have p3 : (0x80 ≤ 0x80 + c / 0x1000 % 0x40 ∧ 0x80 + c / 0x1000 % 0x40 < 0xC0) ∧
            (0x80 ≤ 0x80 + c / 0x40 % 0x40 ∧ 0x80 + c / 0x40 % 0x40 < 0xC0) ∧
            (0x80 ≤ 0x80 + c % 0x40 ∧ 0x80 + c % 0x40 < 0xC0) ∧
            0x10000 ≤ (0xF0 + c / 0x40000 - 0xF0) * 0x40000 + (0x80 + c / 0x1000 % 0x40 - 0x80) * 0x1000 +
              (0x80 + c / 0x40 % 0x40 - 0x80) * 0x40 + (0x80 + c % 0x40 - 0x80) ∧
            (0xF0 + c / 0x40000 - 0xF0) * 0x40000 + (0x80 + c / 0x1000 % 0x40 - 0x80) * 0x1000 +
              (0x80 + c / 0x40 % 0x40 - 0x80) * 0x40 + (0x80 + c % 0x40 - 0x80) < 0x110000 := by
          refine ⟨by omega, by omega, by omega, by omega, by omega⟩
        simp only [utf8EncodeChar, if_neg hc0, if_neg hc1, if_neg hc2, List.cons_append,
          List.nil_append, decodeOne, decodeFour, if_neg n1, if_neg n2, if_neg n3, if_pos p1, e]
        split
        · rfl
        · omega

theorem utf8Decode_encodeChar (c : Nat) (h : isScalar c) (bs : List Nat) :
    utf8Decode (utf8EncodeChar c ++ bs) = (utf8Decode bs).map (fun cs => c :: cs) := by
  cases henc : utf8EncodeChar c with
  | nil => exact absurd henc (utf8EncodeChar_ne_nil c)
  | cons b0 tl =>
    rw [List.cons_append, utf8Decode_cons, ← List.cons_append, ← henc,
      decodeOne_encodeChar c h bs]


theorem encUtf8_utf8Decode {s bs : List Nat} (h : encUtf8 s = some bs) :
    utf8Decode bs = some s := by
  induction s generalizing bs with
  | nil =>
    simp only [encUtf8, Option.some.injEq] at h
    subst h
    rfl
  | cons c rest ih =>
    simp only [encUtf8] at h
    by_cases hsc : isScalar c
    · rw [if_pos hsc] at h
      cases hrest : encUtf8 rest with
      | none =>
        rw [hrest] at h
        simp at h
      | some bsr =>
        rw [hrest] at h
        rw [Option.map_some'] at h
        rw [Option.some.injEq] at h
        subst h
        rw [utf8Decode_encodeChar c hsc bsr, ih hrest]
        rfl
    · rw [if_neg hsc] at h
      simp at h

theorem utf8EncodeChar_lt_256 {c : Nat} (h : c < 0x110000) :
    ∀ b ∈ utf8EncodeChar c, b < 256 := by
  unfold utf8EncodeChar
  split
  · intro b hb
    simp at hb
    omega
  · split
    · intro b hb
      simp at hb
      rcases hb with hb | hb <;> omega
    · split
      · intro b hb
        simp at hb
        rcases hb with hb | hb | hb <;> omega
      · intro b hb
        simp at hb
        rcases hb with hb | hb | hb | hb <;> omega

theorem encUtf8_bytes_lt_256 {s bs : List Nat} (h : encUtf8 s = some bs) :
    ∀ b ∈ bs, b < 256 := by
  induction s generalizing bs with
  | nil =>
    simp only [encUtf8, Option.some.injEq] at h
    subst h
    simp
  | cons c rest ih =>
    simp only [encUtf8] at h
    by_cases hsc : isScalar c
    · rw [if_pos hsc] at h
      cases hrest : encUtf8 rest with
      | none =>
        rw [hrest] at h
        simp at h
      | some bsr =>
        rw [hrest] at h
        rw [Option.map_some'] at h
        rw [Option.some.injEq] at h
        subst h
        intro b hb
        rcases List.mem_append.mp hb with hb | hb
        · exact utf8EncodeChar_lt_256 hsc.1 b hb
        · exact ih hrest b hb
    · rw [if_neg hsc] at h
      simp at h

theorem encLatin1_of_lt_256 {bs : List Nat} (h : ∀ b ∈ bs, b < 256) :
    encLatin1 bs = some bs := by
  induction bs with
  | nil => rfl
  | cons b rest ih =>
    simp only [encLatin1]
    rw [if_pos (h b (by simp)), ih (fun x hx => h x (by simp [hx]))]
    rfl

theorem decLatin1_id (bs : List Nat) : decLatin1 bs = bs := by
  simp [decLatin1]


/-- C4: for every string s in the valid domain, that is whenever
unfixMojibake is defined on s, applying fixMojibake to the result gives
back s: the mojibake repair and its inverse form a round trip. -/
theorem mojibake_roundtrip (s t : List Nat) (h : unfixMojibake s = some t) :
    fixMojibake t = some s := by
  unfold unfixMojibake at h
  cases henc : encUtf8 s with
  | none =>
    rw [henc] at h
    simp at h
  | some bs =>
    rw [henc] at h
    rw [Option.map_some'] at h
    rw [Option.some.injEq] at h
    rw [decLatin1_id] at h
    subst h
    unfold fixMojibake
    rw [encLatin1_of_lt_256 (encUtf8_bytes_lt_256 henc)]
    rw [Option.some_bind]
    exact encUtf8_utf8Decode henc

/-- Witness for C4 at the single character string with code point 233:
unfixMojibake garbles it to the two code points 195 and 169, and
fixMojibake restores it. -/
theorem mojibake_roundtrip_witness :
    unfixMojibake [233] = some [195, 169] ∧ fixMojibake [195, 169] = some [233] :=
  ⟨by decide, mojibake_roundtrip [233] [195, 169] (by decide)⟩


theorem truthy_alice : truthy (some (pystr "Alice")) = true := by decide

/-- C1: with an invalid directory path the run logs the fatal message,
processes zero entries and accumulates nothing, yet the crashed flag stays
false, so the main block still writes the output file. -/
theorem invalid_directory_run (u : Option (List Nat)) (entries : List FileData) :
    (findInDirectory u false entries).fatalLogged = true ∧
    (findInDirectory u false entries).entriesProcessed = 0 ∧
    (findInDirectory u false entries).result = [] ∧
    mainWritesOutput (findInDirectory u false entries) = true := by
  unfold findInDirectory mainWritesOutput
  simp

/-- C9: configuring an empty username is identical to configuring none: the
username stays None with no unfixMojibake applied, and a None username
disables both the participant filter and the self message filter. -/
theorem empty_username_like_none :
    setUsername (some []) = setUsername none ∧ setUsername (some []) = .ok none ∧
    (∀ j : FileDict, processParsed none j = processMsgs none j) ∧
    (∀ m : MsgDict, senderCheck none m = .ok false) := by
  refine ⟨rfl, rfl, ?_, ?_⟩
  · intro j
    unfold processParsed
    simp [truthy]
  · intro m
    unfold senderCheck
    simp [truthy]

/-- C6: with username Alice configured, setUsername stores Alice unchanged,
and every message whose sender_name is Alice is skipped with no record and
no scan of its content. -/
theorem self_messages_skipped (m : MsgDict)
    (hm : m.sender_name = some (pystr "Alice")) :
    setUsername (some (pystr "Alice")) = .ok (some (pystr "Alice")) ∧
    processMessage (some (pystr "Alice")) m = .ok none := by
  constructor
  · rfl
  · unfold processMessage senderCheck
    rw [truthy_alice, hm]
    simp

/-- Witness for C6: a concrete self message whose content does match the
phrase still produces no record. -/
theorem self_messages_skipped_witness :
    ({ sender_name := some (pystr "Alice"), type := some (pystr "Generic"),
       content := some (pystr "Sam set your nickname to Bob."),
       timestamp_ms := some 1 } : MsgDict).sender_name = some (pystr "Alice") ∧
    processMessage (some (pystr "Alice"))
      { sender_name := some (pystr "Alice"), type := some (pystr "Generic"),
        content := some (pystr "Sam set your nickname to Bob."),
        timestamp_ms := some 1 } = .ok none :=
  ⟨rfl, (self_messages_skipped _ rfl).2⟩


theorem isParticipant_not_found (ps : List Participant) (uname : List Nat)
    (h : ∀ p ∈ ps, ∃ n, p.name = some n ∧ n ≠ uname) :
    isParticipant ps uname = .ok false := by
  induction ps with
  | nil => rfl
  | cons p rest ih =>
    obtain ⟨n, hn, hne⟩ := h p (by simp)
    unfold isParticipant
    rw [hn]
    show (if n = uname then Except.ok true else isParticipant rest uname) = Except.ok false
    rw [if_neg hne]
    exact ih (fun q hq => h q (by simp [hq]))

/-- C7 counterexample: a parseable file whose single participant entry has
no name key contains no entry named Alice, yet findInFile does not skip it
silently: reading the name raises and the file is logged as a per file
error. -/
theorem nonparticipant_counterexample :
    processParsed (some (pystr "Alice"))
      { participants := some [{ name := none }], messages := some [] } = .errored [] ∧
    processParsed (some (pystr "Alice"))
      { participants := some [{ name := none }], messages := some [] } ≠ .skipped := by
  constructor
  · rfl
  · decide

/-- C7 amended: with username Alice, a parseable file whose participant
entries all carry a name and none of them is Alice is skipped without
error, before any message is read, hence contributes zero records. -/
theorem nonparticipant_file_skipped (j : FileDict) (ps : List Participant)
    (hps : j.participants = some ps)
    (h : ∀ p ∈ ps, ∃ n, p.name = some n ∧ n ≠ pystr "Alice") :
    processParsed (some (pystr "Alice")) j = .skipped ∧
    (processParsed (some (pystr "Alice")) j).records = [] := by
  have hmain : processParsed (some (pystr "Alice")) j = .skipped := by
    unfold processParsed
    rw [truthy_alice, hps]
    simp only [if_true]
    rw [isParticipant_not_found ps _ (by simpa using h)]
  exact ⟨hmain, by rw [hmain]; rfl⟩

/-- Witness for C7 amended: a concrete file with one participant named Bob
and a message whose content matches the phrase still contributes nothing. -/
theorem nonparticipant_file_skipped_witness :
    processParsed (some (pystr "Alice"))
      ⟨some [⟨some (pystr "Bob")⟩],
        some [⟨some (pystr "Bob"), some (pystr "Generic"),
          some (pystr "Sam set your nickname to Bob."), some 1⟩]⟩ = .skipped ∧
    (processParsed (some (pystr "Alice"))
      ⟨some [⟨some (pystr "Bob")⟩],
        some [⟨some (pystr "Bob"), some (pystr "Generic"),
          some (pystr "Sam set your nickname to Bob."), some 1⟩]⟩).records = [] :=
  nonparticipant_file_skipped _ _ rfl
    (by intro p hp; simp at hp; subst hp; exact ⟨pystr "Bob", rfl, by decide⟩)


theorem scanContent_offset {c nick : List Nat}
    (h : scanContent c = .ok (some nick)) :
    ∃ i, regexSearchStart c = some i ∧ 0 < i := by
  unfold scanContent at h
  split at h
  · exact absurd h (by simp)
  · rename_i i heq
    split at h
    · rename_i hpos
      exact ⟨i, heq, hpos⟩
    · exact absurd h (by simp)

/-- C5: a record is only produced from a message whose content matches the
regex at a strictly positive offset; the content consisting of the bare
phrase text yields no record, while the same content with the prefix Sam
yields one record with nickname Bob. -/
theorem record_requires_positive_offset (u : Option (List Nat)) (m : MsgDict) (r : NRec)
    (h : processMessage u m = .ok (some r)) :
    (∃ c i, m.content = some c ∧ regexSearchStart c = some i ∧ 0 < i) ∧
    processMessage none
      ⟨none, some (pystr "Generic"), some (pystr "set your nickname to Bob."), some 1⟩ =
      .ok none ∧
    processMessage none
      ⟨none, some (pystr "Generic"), some (pystr "Sam set your nickname to Bob."), some 1⟩ =
      .ok (some ⟨1, pystr "Bob"⟩) := by
  refine ⟨?_, rfl, rfl⟩
  unfold processMessage at h
  split at h
  · exact absurd h (by simp)
  · exact absurd h (by simp)
  · split at h
    · exact absurd h (by simp)
    · rename_i t ht
      split at h
      · split at h
        · exact absurd h (by simp)
        · rename_i c hc
          split at h
          · exact absurd h (by simp)
          · exact absurd h (by simp)
          · exact absurd h (by simp)
          · rename_i nick ts hscan hts
            obtain ⟨i, hi, hpos⟩ := scanContent_offset hscan
            exact ⟨c, i, hc, hi, hpos⟩
      · exact absurd h (by simp)

/-- Witness for C5 at the concrete Sam message. -/
theorem record_requires_positive_offset_witness :
    (∃ c i, (⟨none, some (pystr "Generic"),
        some (pystr "Sam set your nickname to Bob."), some 1⟩ : MsgDict).content = some c ∧
      regexSearchStart c = some i ∧ 0 < i) ∧
    processMessage none
      ⟨none, some (pystr "Generic"), some (pystr "set your nickname to Bob."), some 1⟩ =
      .ok none ∧
    processMessage none
      ⟨none, some (pystr "Generic"), some (pystr "Sam set your nickname to Bob."), some 1⟩ =
      .ok (some ⟨1, pystr "Bob"⟩) :=
  record_requires_positive_offset none
    ⟨none, some (pystr "Generic"), some (pystr "Sam set your nickname to Bob."), some 1⟩
    ⟨1, pystr "Bob"⟩ rfl


theorem runMessages_append (u : Option (List Nat)) (ms1 ms2 : List MsgDict)
    (h : (runMessages u ms1).2 = false) :
    runMessages u (ms1 ++ ms2) =
      ((runMessages u ms1).1 ++ (runMessages u ms2).1, (runMessages u ms2).2) := by
  induction ms1 with
  | nil => simp [runMessages]
  | cons m ms ih =>
    rw [List.cons_append]
    simp only [runMessages] at h ⊢
    cases hp : processMessage u m with
    | error e =>
      rw [hp] at h
      simp at h
    | ok o =>
      rw [hp] at h
      cases o with
      | none => exact ih h
      | some r =>
        have h2 : (runMessages u ms).2 = false := h
        show (r :: (runMessages u (ms ++ ms2)).1, (runMessages u (ms ++ ms2)).2) =
          ((r :: (runMessages u ms).1) ++ (runMessages u ms2).1, (runMessages u ms2).2)
        rw [ih h2]
        simp

theorem runMessages_length (u : Option (List Nat)) (ms : List MsgDict)
    (h : (runMessages u ms).2 = false) :
    (runMessages u ms).1.length =
      ms.countP (fun m => match processMessage u m with | .ok (some _) => true | _ => false) := by
  induction ms with
  | nil => simp [runMessages]
  | cons m rest ih =>
    simp only [runMessages] at h ⊢
    rw [List.countP_cons]
    cases hp : processMessage u m with
    | error e =>
      rw [hp] at h
      simp at h
    | ok o =>
      rw [hp] at h
      cases o with
      | none =>
        have h2 : (runMessages u rest).2 = false := h
        show (runMessages u rest).1.length = _
        rw [ih h2]
        simp [hp]
      | some r =>
        have h2 : (runMessages u rest).2 = false := h
        show (r :: (runMessages u rest).1).length = _
        rw [List.length_cons, ih h2]
        simp [hp]


/-- C8: the result list preserves first seen order: findInFiles over a
concatenation of path lists is the concatenation of the per list results,
a clean message run over concatenated message lists concatenates the
records in order, and the record count equals the count of producing
messages, so identical records are never merged. -/
theorem result_order_preserved (u : Option (List Nat)) (es1 es2 : List PathEntry)
    (ms1 ms2 : List MsgDict) (h : (runMessages u ms1).2 = false) :
    findInFiles u (es1 ++ es2) = findInFiles u es1 ++ findInFiles u es2 ∧
    (runMessages u (ms1 ++ ms2)).1 = (runMessages u ms1).1 ++ (runMessages u ms2).1 ∧
    (runMessages u ms1).1.length =
      ms1.countP (fun m => match processMessage u m with | .ok (some _) => true | _ => false) := by
  refine ⟨?_, ?_, runMessages_length u ms1 h⟩
  · induction es1 with
    | nil => simp [findInFiles]
    | cons e rest ih =>
      cases e with
      | notAFile => simpa [findInFiles] using ih
      | file d => simpa [findInFiles, List.append_assoc] using ih
  · rw [runMessages_append u ms1 ms2 h]

/-- Witness for C8: a run over two identical matching messages keeps both
records, in order, with count two. -/
theorem result_order_preserved_witness :
    (runMessages none ([sampleMsg] ++ [sampleMsg])).1 =
      (runMessages none [sampleMsg]).1 ++ (runMessages none [sampleMsg]).1 ∧
    (runMessages none [sampleMsg]).1.length = 1 ∧
    findInFiles none ([PathEntry.notAFile] ++ [PathEntry.file (.parsed ⟨none, some [sampleMsg, sampleMsg]⟩)]) =
      findInFiles none [PathEntry.notAFile] ++
        findInFiles none [PathEntry.file (.parsed ⟨none, some [sampleMsg, sampleMsg]⟩)] :=
  ⟨(result_order_preserved none [] [] [sampleMsg] [sampleMsg] rfl).2.1,
   by rw [(result_order_preserved none [] [] [sampleMsg] [] rfl).2.2]; rfl,
   (result_order_preserved none [PathEntry.notAFile]
     [PathEntry.file (.parsed ⟨none, some [sampleMsg, sampleMsg]⟩)] [] [] rfl).1⟩

/-- C10: with a configured username a message lacking sender_name raises a
missing key error, even when its type is not Generic, and that error
abandons the remaining messages of the file while keeping the earlier
records; with no username configured sender_name is never read, so its
absence changes nothing. -/
theorem missing_sender_name (u : Option (List Nat)) (m : MsgDict)
    (ms1 ms2 : List MsgDict)
    (hu : truthy u = true) (hs : m.sender_name = none)
    (h1 : (runMessages u ms1).2 = false) :
    processMessage u m = .error () ∧
    runMessages u (ms1 ++ m :: ms2) = ((runMessages u ms1).1, true) ∧
    (∀ mo : MsgDict, ∀ sn, processMessage none { mo with sender_name := sn } =
      processMessage none { mo with sender_name := none }) := by
  have herr : processMessage u m = .error () := by
    unfold processMessage senderCheck
    rw [hu, hs]
    simp
  refine ⟨herr, ?_, ?_⟩
  · rw [runMessages_append u ms1 (m :: ms2) h1]
    simp [runMessages, herr]
  · intro mo sn
    unfold processMessage senderCheck
    simp [truthy]

/-- Witness for C10: a file with one good message, then a non Generic
message with no sender_name, then another good message, errors out keeping
exactly the first record. -/
theorem missing_sender_name_witness :
    processMessage (some (pystr "Alice")) ⟨none, some (pystr "Share"), none, none⟩ = .error () ∧
    runMessages (some (pystr "Alice"))
        ([sampleMsg] ++ ⟨none, some (pystr "Share"), none, none⟩ :: [sampleMsg]) =
      ((runMessages (some (pystr "Alice")) [sampleMsg]).1, true) ∧
    (∀ mo : MsgDict, ∀ sn, processMessage none { mo with sender_name := sn } =
      processMessage none { mo with sender_name := none }) :=
  missing_sender_name (some (pystr "Alice")) ⟨none, some (pystr "Share"), none, none⟩
    [sampleMsg] [sampleMsg] rfl rfl rfl

/-- C3: an exception while processing fields of an already parsed file is
caught per file: the records appended before the error remain, the
remaining messages of that file are abandoned, and processing continues
with the next file. -/
theorem per_file_error_caught (u : Option (List Nat)) (j : FileDict)
    (ms1 ms2 : List MsgDict) (m : MsgDict) (rest : List PathEntry)
    (hj : j.messages = some (ms1 ++ m :: ms2))
    (hgate : truthy u = false ∨
      ∃ ps, j.participants = some ps ∧ isParticipant ps (u.getD []) = .ok true)
    (h1 : (runMessages u ms1).2 = false)
    (herr : processMessage u m = .error ()) :
    processParsed u j = .errored (runMessages u ms1).1 ∧
    findInFiles u (.file (.parsed j) :: rest) = (runMessages u ms1).1 ++ findInFiles u rest := by
  have hmsgs : processMsgs u j = .errored (runMessages u ms1).1 := by
    unfold processMsgs
    rw [hj]
    show (let p := runMessages u (ms1 ++ m :: ms2);
      if p.2 = true then FileResult.errored p.1 else FileResult.completed p.1) =
      FileResult.errored (runMessages u ms1).1
    rw [runMessages_append u ms1 (m :: ms2) h1]
    simp [runMessages, herr]
  have hp : processParsed u j = .errored (runMessages u ms1).1 := by
    unfold processParsed
    by_cases htru : truthy u
    · rcases hgate with hg | ⟨ps, hps, hok⟩
      · rw [htru] at hg
        simp at hg
      · rw [htru]
        simp [hps, hok, hmsgs]
    · rw [if_neg htru]
      exact hmsgs
  refine ⟨hp, ?_⟩
  show processData u (.parsed j) ++ findInFiles u rest = _
  rw [processData, hp]
  rfl

/-- Witness for C3: with no username, a file holding a good message, then a
message whose raw matched nickname is the lone code point 255 so that
fixMojibake raises, then another good message, keeps only the first record
and the next path entry is still processed. -/
theorem per_file_error_caught_witness :
    processParsed none ⟨none, some ([sampleMsg] ++ badCodecMsg :: [sampleMsg])⟩ =
      .errored (runMessages none [sampleMsg]).1 ∧
    findInFiles none
        (.file (.parsed ⟨none, some ([sampleMsg] ++ badCodecMsg :: [sampleMsg])⟩) ::
          [PathEntry.file (.parsed ⟨none, some [sampleMsg]⟩)]) =
      (runMessages none [sampleMsg]).1 ++
        findInFiles none [PathEntry.file (.parsed ⟨none, some [sampleMsg]⟩)] :=
  per_file_error_caught none ⟨none, some ([sampleMsg] ++ badCodecMsg :: [sampleMsg])⟩
    [sampleMsg] [sampleMsg] badCodecMsg [PathEntry.file (.parsed ⟨none, some [sampleMsg]⟩)]
    rfl (Or.inl rfl) rfl rfl


theorem matchSuffix_nil : matchSuffix [] = false := by decide

theorem searchFrom_eq (l : List Nat) (k : Nat)
    (hk : matchSuffix (l.drop k) = true)
    (hlt : ∀ j, j < k → matchSuffix (l.drop j) = false) :
    ∀ i0, searchFrom l i0 = some (i0 + k) := by
  induction l generalizing k with
  | nil =>
    rw [List.drop_nil, matchSuffix_nil] at hk
    exact absurd hk (by simp)
  | cons c rest ih =>
    intro i0
    cases k with
    | zero =>
      rw [List.drop_zero] at hk
      rw [searchFrom, if_pos hk]
      simp
    | succ kp =>
      have h0 : matchSuffix (c :: rest) = false := by
        have := hlt 0 (Nat.succ_pos kp)
        rwa [List.drop_zero] at this
      rw [searchFrom, if_neg (by simp [h0])]
      have hk2 : matchSuffix (rest.drop kp) = true := hk
      have hlt2 : ∀ j, j < kp → matchSuffix (rest.drop j) = false := by
        intro j hj
        exact hlt (j + 1) (by omega)
      rw [ih kp hk2 hlt2 (i0 + 1)]
      congr 1
      omega

theorem matchSuffix_phrase (X : List Nat) (hne : X ≠ [])
    (hnl : X.all (fun c => c != 10) = true) :
    matchSuffix (MATCH_PHRASE ++ X) = true := by
  unfold matchSuffix PHRASE_OFFSET
  have h1 : MATCH_PHRASE.isPrefixOf (MATCH_PHRASE ++ X) = true := by
    rw [List.isPrefixOf_iff_prefix]
    exact List.prefix_append _ _
  rw [List.drop_left, h1, hnl]
  cases X with
  | nil => exact absurd rfl hne
  | cons a as => simp

theorem matchSuffix_not_prefix {l : List Nat} (h : ¬ MATCH_PHRASE <+: l) :
    matchSuffix l = false := by
  unfold matchSuffix
  cases hp : MATCH_PHRASE.isPrefixOf l with
  | false => simp
  | true => exact absurd (List.isPrefixOf_iff_prefix.mp hp) h

theorem regexSearchStart_eq (A X : List Nat)
    (hX : matchSuffix (MATCH_PHRASE ++ X) = true)
    (hfirst : ∀ i, i < A.length → ¬ MATCH_PHRASE <+: (A ++ (MATCH_PHRASE ++ X)).drop i) :
    regexSearchStart (A ++ (MATCH_PHRASE ++ X)) = some A.length := by
  unfold regexSearchStart
  have hk : matchSuffix ((A ++ (MATCH_PHRASE ++ X)).drop A.length) = true := by
    rw [List.drop_left]
    exact hX
  have hlt : ∀ j, j < A.length → matchSuffix ((A ++ (MATCH_PHRASE ++ X)).drop j) = false :=
    fun j hj => matchSuffix_not_prefix (hfirst j hj)
  have hs := searchFrom_eq _ A.length hk hlt 0
  rwa [Nat.zero_add] at hs


/-- C2 counterexample: the content of this message contains the text Sam
set your nickname to B, a newline, C and a full stop, so it contains the
claimed shape with actor Sam and nickname spanning the newline, the message
passes the sender and type filters and has a timestamp, yet no record is
appended: the dot of the regex does not match a newline, so the pattern
anchored at end of string fails entirely. -/
theorem nickname_extraction_counterexample :
    processMessage none
      ⟨none, some (pystr "Generic"), some (pystr "Sam set your nickname to B\nC."), some 1⟩ =
      .ok none := rfl

/-- C2 amended: a message that passes the sender and type filters, whose
content splits as A, the phrase, then B and a full stop, where A is
nonempty and holds the first occurrence of the phrase, the text after the
phrase is free of newlines, the mojibake repair succeeds on B and the
message has a timestamp, appends exactly the record with that timestamp
and the repaired nickname. -/
theorem nickname_extraction (u : Option (List Nat)) (m : MsgDict)
    (A B nick : List Nat) (ts : Int)
    (hsend : senderCheck u m = .ok false)
    (htype : m.type = some (pystr "Generic"))
    (hcont : m.content = some (A ++ (MATCH_PHRASE ++ (B ++ [46]))))
    (hts : m.timestamp_ms = some ts)
    (hA : A ≠ [])
    (hfirst : ∀ i, i < A.length → ¬ MATCH_PHRASE <+: (A ++ (MATCH_PHRASE ++ (B ++ [46]))).drop i)
    (hnl : (B ++ [46]).all (fun c => c != 10) = true)
    (hfix : fixMojibake B = some nick) :
    processMessage u m = .ok (some ⟨ts, nick⟩) := by
  have hmatch : matchSuffix (MATCH_PHRASE ++ (B ++ [46])) = true :=
    matchSuffix_phrase _ (by simp) hnl
  have hsearch := regexSearchStart_eq A (B ++ [46]) hmatch hfirst
  have hpos : 0 < A.length := by
    cases A with
    | nil => exact absurd rfl hA
    | cons a as => simp
  have hraw :
      (((A ++ (MATCH_PHRASE ++ (B ++ [46]))).drop A.length).drop PHRASE_OFFSET).dropLast = B := by
    rw [List.drop_left]
    unfold PHRASE_OFFSET
    rw [List.drop_left, List.dropLast_concat]
  have hscan : scanContent (A ++ (MATCH_PHRASE ++ (B ++ [46]))) = .ok (some nick) := by
    unfold scanContent
    rw [hsearch]
    show (if 0 < A.length then
        match fixMojibake
            (((A ++ (MATCH_PHRASE ++ (B ++ [46]))).drop A.length).drop PHRASE_OFFSET).dropLast with
        | none => Except.error ()
        | some nick => Except.ok (some nick)
      else Except.ok none) = Except.ok (some nick)
    rw [if_pos hpos, hraw, hfix]
  unfold processMessage
  rw [hsend, htype, hcont, hts]
  simp [hscan]

/-- Witness for C2 amended at the concrete Sam and Bob message. -/
theorem nickname_extraction_witness :
    processMessage none sampleMsg = .ok (some ⟨1, pystr "Bob"⟩) :=
  nickname_extraction none sampleMsg (pystr "Sam") (pystr "Bob") (pystr "Bob") 1
    rfl rfl rfl rfl (by decide) (by decide) (by decide) (by decide)

end FBNicknameFinder
